import Mathlib

/- Verification of the Mamba sequence-model core found in
   decorr_mamba/decorr_mamba/model/mamba.py (the current implementation) and
   mamba/src/model/mamba.py (an older variant using the exact zero-order-hold
   input coupling).  Tensors are shallowly embedded as total functions from
   batch / position / channel / state indices to real numbers; tensor shapes
   appear as explicit bounds on finite sums and as list lengths.  The
   sequential scan loop of S6Block.forward is embedded as a structural
   recursion that mirrors the Python list-append loop. -/

namespace ThesisWork

/-- Logistic sigmoid, the function torch uses inside F.silu. -/
noncomputable def sigmoid (x : ℝ) : ℝ := 1 / (1 + Real.exp (-x))

/-- Activation F.silu: x * sigmoid x. -/
noncomputable def silu (x : ℝ) : ℝ := x * sigmoid x

/-- Activation F.softplus: log(1 + exp x). -/
noncomputable def softplus (x : ℝ) : ℝ := Real.log (1 + Real.exp x)

/-- Rank-3 tensor indexed by (batch, position, channel). -/
abbrev T3 : Type := Nat → Nat → Nat → ℝ

/-- Rank-4 tensor indexed by (batch, position, channel, state). -/
abbrev T4 : Type := Nat → Nat → Nat → Nat → ℝ

/-- Model dimensions from MambaArgs: width D, expanded width Din (D_inner),
state width N, timestep rank r (delta_rank), convolution width k
(conv_1d_size), and vocabulary size. -/
structure Cfg where
  D : Nat
  Din : Nat
  N : Nat
  r : Nat
  k : Nat
  vocab : Nat

/-- The learned tensors of one residual block (ResidualMambaBlock and its
MambaBlock / S6Block): the RMSNorm scale, the input projection (with its
configuration-controlled bias; bias absent means the zero function), the
depthwise convolution kernel and bias, the bias-free to_BCdelta projection,
the biased delta_upscale map, the log-space decay matrix log_minus_A, the
skip scale D (here Dskip), and the output projection. -/
structure LayerParams where
  rmsW : Nat → ℝ
  inProjW : Nat → Nat → ℝ
  inProjB : Nat → ℝ
  convW : Nat → Nat → ℝ
  convB : Nat → ℝ
  toBCdeltaW : Nat → Nat → ℝ
  deltaUpW : Nat → Nat → ℝ
  deltaUpB : Nat → ℝ
  logMinusA : Nat → Nat → ℝ
  Dskip : Nat → ℝ
  outProjW : Nat → Nat → ℝ
  outProjB : Nat → ℝ

/-- S6Block.discretize of decorr_mamba: delta_A = einsum(delta, -exp(log_minus_A)),
A_bar = exp(delta_A), and the Euler input coupling
B_bar_x = einsum(delta, B, x), returned as a pair. -/
noncomputable def discretize (lp : LayerParams) (delta B x : T3) : T4 × T4 :=
  let deltaA : T4 := fun b l d n => delta b l d * -Real.exp (lp.logMinusA d n)
  let aBar : T4 := fun b l d n => Real.exp (deltaA b l d n)
  let bBarX : T4 := fun b l d n => delta b l d * B b l n * x b l d
  (aBar, bBarX)

/-- The sequential scan loop of S6Block.forward, per (batch, channel, state)
coordinate: h starts at 0 and the trajectory list starts as [0]; each step i
sets h := A_bar i * h + B_bar_x i and appends h.  Returns the final h and the
full trajectory (the recorded initial zero state included, as in the source,
which later drops it with hidden_states[:,1:]). -/
def scanLoop (aB bBx : Nat → ℝ) : Nat → ℝ × List ℝ
  | 0 => ((0 : ℝ), [(0 : ℝ)])
  | l + 1 =>
    let p := scanLoop aB bBx l
    let h := aB l * p.1 + bBx l
    (h, p.2 ++ [h])

/-- The recurrence exactly as the specification words it: hSpec m is the
hidden state before step m, so hSpec 0 = 0 is the fresh zero initial state
and hSpec (l+1) = A_bar l * hSpec l + B_bar_x l is the state after step l. -/
def hSpec (aB bBx : Nat → ℝ) : Nat → ℝ
  | 0 => 0
  | l + 1 => aB l * hSpec aB bBx l + bBx l

/-- Element l of the trajectory with the initial zero state dropped
(hidden_states[:,1:] in the source); getD with default 0 mirrors in-range
torch indexing. -/
def trajGet (aB bBx : Nat → ℝ) (L l : Nat) : ℝ :=
  (((scanLoop aB bBx L).2).drop 1).getD l 0

/-- The single bias-free linear map to_BCdelta of output width 2N + r. -/
noncomputable def s6BCdelta (cfg : Cfg) (lp : LayerParams) (x : T3) : T3 :=
  fun b l c => (Finset.range cfg.Din).sum (fun i => lp.toBCdeltaW c i * x b l i)

/-- delta: the first delta_rank entries of the split of to_BCdelta, passed
through the biased delta_upscale map and then softplus. -/
noncomputable def s6Delta (cfg : Cfg) (lp : LayerParams) (x : T3) : T3 :=
  fun b l d => softplus (lp.deltaUpB d +
    (Finset.range cfg.r).sum (fun j => lp.deltaUpW d j * s6BCdelta cfg lp x b l j))

/-- Input-selection vector B: the next N entries of the split. -/
noncomputable def s6B (cfg : Cfg) (lp : LayerParams) (x : T3) : T3 :=
  fun b l n => s6BCdelta cfg lp x b l (cfg.r + n)

/-- Output-selection vector C: the last N entries of the split. -/
noncomputable def s6C (cfg : Cfg) (lp : LayerParams) (x : T3) : T3 :=
  fun b l n => s6BCdelta cfg lp x b l (cfg.r + cfg.N + n)

/-- S6Block.forward of decorr_mamba for a length-L input: project and split,
discretize, run the sequential scan loop from the zero state, contract the
trajectory against C, and add the skip term x * D. -/
noncomputable def s6Forward (cfg : Cfg) (lp : LayerParams) (L : Nat) (x : T3) : T3 :=
  let delta := s6Delta cfg lp x
  let dis := discretize lp delta (s6B cfg lp x) x
  fun b l d =>
    (Finset.range cfg.N).sum (fun n =>
      s6C cfg lp x b l n * trajGet (fun i => dis.1 b i d n) (fun i => dis.2 b i d n) L l)
    + x b l d * lp.Dskip d

theorem scanLoop_fst (aB bBx : Nat → ℝ) (L : Nat) :
    (scanLoop aB bBx L).1 = hSpec aB bBx L := by
  induction L with
  | zero => rfl
  | succ l ih => simp [scanLoop, hSpec, ih]

theorem scanLoop_snd (aB bBx : Nat → ℝ) (L : Nat) :
    (scanLoop aB bBx L).2 = (List.range (L + 1)).map (hSpec aB bBx) := by
  induction L with
  | zero => rfl
  | succ l ih =>
    simp only [scanLoop, ih, scanLoop_fst]
    rw [List.range_succ (n := l + 1), List.map_append]
    simp [hSpec]

theorem trajGet_eq (aB bBx : Nat → ℝ) {L l : Nat} (h : l < L) :
    trajGet aB bBx L l = hSpec aB bBx (l + 1) := by
  unfold trajGet
  rw [scanLoop_snd, List.range_succ_eq_map, List.map_cons, List.drop_one,
    List.tail_cons, List.map_map]
  rw [List.getD_eq_getElem _ _ (by simpa using h)]
  simp

theorem trajGet_default (aB bBx : Nat → ℝ) {L l : Nat} (h : L ≤ l) :
    trajGet aB bBx L l = 0 := by
  unfold trajGet
  apply List.getD_eq_default
  rw [scanLoop_snd]
  simpa using h

theorem hSpec_congr {aB aB2 bBx bBx2 : Nat → ℝ} :
    ∀ {m : Nat}, (∀ i, i < m → aB i = aB2 i ∧ bBx i = bBx2 i) →
      hSpec aB bBx m = hSpec aB2 bBx2 m
  | 0, _ => rfl
  | m + 1, h => by
    have hm := h m (Nat.lt_succ_self m)
    simp only [hSpec, hm.1, hm.2,
      hSpec_congr (fun i hi => h i (Nat.lt_trans hi (Nat.lt_succ_self m)))]

/-- Claim C1: S6Block.forward starts every invocation from the zero hidden
state (the recorded initial trajectory entry is 0 for every input, so no
state carries across calls of the pure scan), applies
h_l = A_bar[:,l,:,:] * h_{l-1} + B_bar_x[:,l,:,:] once per step l in strictly
increasing order (the hSpec recurrence), and returns
y[b,l,d] = sum_n C[b,l,n] * h[b,l,d,n] + D[d] * x[b,l,d]. -/
theorem claim_C1_scan (cfg : Cfg) (lp : LayerParams) (L : Nat) (x : T3)
    (b l d : Nat) (hl : l < L) :
    (∀ aB bBx : Nat → ℝ, ((scanLoop aB bBx L).2).getD 0 0 = 0) ∧
    s6Forward cfg lp L x b l d =
      (Finset.range cfg.N).sum (fun n =>
        s6C cfg lp x b l n *
          hSpec (fun i => (discretize lp (s6Delta cfg lp x) (s6B cfg lp x) x).1 b i d n)
                (fun i => (discretize lp (s6Delta cfg lp x) (s6B cfg lp x) x).2 b i d n)
                (l + 1))
      + lp.Dskip d * x b l d := by
  constructor
  · intro aB bBx
    rw [scanLoop_snd, List.range_succ_eq_map]
    simp [hSpec]
  · unfold s6Forward
    rw [mul_comm (x b l d) (lp.Dskip d)]
    refine congrArg (fun t => t + lp.Dskip d * x b l d) ?_
    refine Finset.sum_congr rfl (fun n _ => ?_)
    rw [trajGet_eq _ _ hl]

/-- A layer whose tensors are all zero, used as a concrete instantiation. -/
noncomputable def lpZero : LayerParams :=
  { rmsW := fun _ => 0, inProjW := fun _ _ => 0, inProjB := fun _ => 0,
    convW := fun _ _ => 0, convB := fun _ => 0, toBCdeltaW := fun _ _ => 0,
    deltaUpW := fun _ _ => 0, deltaUpB := fun _ => 0, logMinusA := fun _ _ => 0,
    Dskip := fun _ => 0, outProjW := fun _ _ => 0, outProjB := fun _ => 0 }

/-- A small concrete configuration used as a concrete instantiation. -/
def cfgOne : Cfg := { D := 1, Din := 1, N := 1, r := 1, k := 1, vocab := 2 }

/-- Witness for claim C1 at a concrete input. -/
theorem claim_C1_scan_witness :
    (0 : Nat) < 1 ∧
    s6Forward cfgOne lpZero 1 (fun _ _ _ => 0) 0 0 0 =
      (Finset.range cfgOne.N).sum (fun n =>
        s6C cfgOne lpZero (fun _ _ _ => 0) 0 0 n *
          hSpec
            (fun i => (discretize lpZero (s6Delta cfgOne lpZero (fun _ _ _ => 0))
              (s6B cfgOne lpZero (fun _ _ _ => 0)) (fun _ _ _ => 0)).1 0 i 0 n)
            (fun i => (discretize lpZero (s6Delta cfgOne lpZero (fun _ _ _ => 0))
              (s6B cfgOne lpZero (fun _ _ _ => 0)) (fun _ _ _ => 0)).2 0 i 0 n)
            1)
      + lpZero.Dskip 0 * (0 : ℝ) :=
  ⟨Nat.one_pos,
    (claim_C1_scan cfgOne lpZero 1 (fun _ _ _ => 0) 0 0 0 Nat.one_pos).2⟩

/-- The exact zero-order-hold input coupling, written from the specification
design note for comparison: B_bar = 1/delta_A * (A_bar - 1) * delta_B, then
multiplied by the input x. -/
noncomputable def zohBbarX (lp : LayerParams) (delta B x : T3) : T4 :=
  fun b l d n =>
    let dA := delta b l d * -Real.exp (lp.logMinusA d n)
    1 / dA * (Real.exp dA - 1) * (delta b l d * B b l n) * x b l d

/-- Claim C2: discretize uses the decay rate A = -exp(log_minus_A), returns
A_bar[b,l,d,n] = exp(delta[b,l,d] * A[d,n]), and computes the input coupling
by the first-order Euler approximation
B_bar_x[b,l,d,n] = delta[b,l,d] * B[b,l,n] * x[b,l,d], which is not the
exact zero-order-hold integral: the two disagree at a concrete input. -/
theorem claim_C2_discretize (lp : LayerParams) (delta B x : T3) :
    ((discretize lp delta B x).1 = fun b l d n =>
        Real.exp (delta b l d * -Real.exp (lp.logMinusA d n))) ∧
    ((discretize lp delta B x).2 = fun b l d n =>
        delta b l d * B b l n * x b l d) ∧
    (∃ (lp2 : LayerParams) (d2 B2 x2 : T3) (b l d n : Nat),
        (discretize lp2 d2 B2 x2).2 b l d n ≠ zohBbarX lp2 d2 B2 x2 b l d n) := by
  refine ⟨rfl, rfl, lpZero, fun _ _ _ => 1, fun _ _ _ => 1, fun _ _ _ => 1,
    0, 0, 0, 0, ?_⟩
  simp only [discretize, zohBbarX, lpZero, Real.exp_zero]
  intro hcontra
  have h1 : (1 : ℝ) * 1 * 1 = 1 := by ring
  have h2 : 1 / ((1 : ℝ) * -1) * (Real.exp ((1 : ℝ) * -1) - 1) * (1 * 1) * 1
      = 1 - Real.exp (-1) := by ring_nf
  rw [h1, h2] at hcontra
  have := Real.exp_pos (-1)
  linarith

/-- Claim C6: delta is the softplus of an affine map of the projected input
and hence strictly positive for every input, and each element of
A_bar = exp(delta * (-exp(log_minus_A))) lies in (0, 1] whenever the
corresponding delta entry is positive. -/
theorem claim_C6_range (cfg : Cfg) (lp : LayerParams) :
    (∀ (x : T3) (b l d : Nat), 0 < s6Delta cfg lp x b l d) ∧
    (∀ (delta B x : T3) (b l d n : Nat), 0 < delta b l d →
      (discretize lp delta B x).1 b l d n ∈ Set.Ioc (0 : ℝ) 1) := by
  constructor
  · intro x b l d
    apply Real.log_pos
    have := Real.exp_pos (lp.deltaUpB d +
      (Finset.range cfg.r).sum (fun j => lp.deltaUpW d j * s6BCdelta cfg lp x b l j))
    linarith
  · intro delta B x b l d n hpos
    constructor
    · exact Real.exp_pos _
    · show Real.exp _ ≤ 1
      rw [Real.exp_le_one_iff]
      have hneg : -Real.exp (lp.logMinusA d n) < 0 :=
        neg_neg_of_pos (Real.exp_pos _)
      exact le_of_lt (mul_neg_of_pos_of_neg hpos hneg)

/-- Witness for claim C6 at a concrete input. -/
theorem claim_C6_range_witness :
    0 < s6Delta cfgOne lpZero (fun _ _ _ => 0) 0 0 0 ∧
    (0 : ℝ) < 1 ∧
    (discretize lpZero (fun _ _ _ => 1) (fun _ _ _ => 0) (fun _ _ _ => 0)).1
      0 0 0 0 ∈ Set.Ioc (0 : ℝ) 1 :=
  ⟨(claim_C6_range cfgOne lpZero).1 (fun _ _ _ => 0) 0 0 0, one_pos,
    (claim_C6_range cfgOne lpZero).2 (fun _ _ _ => 1) (fun _ _ _ => 0)
      (fun _ _ _ => 0) 0 0 0 0 one_pos⟩

/-- Claim C9: with L = 0 the scan trajectory (after dropping the recorded
initial zero) is empty, and with L = 1 it is the single state
h_0 = B_bar_x[:,0] and the block output reduces to
y_0 = sum_n C[:,0,n] * h_0[:,:,n] + D * x[:,0,:]. -/
theorem claim_C9_edge (cfg : Cfg) (lp : LayerParams) (x : T3) (b d : Nat) :
    (∀ aB bBx : Nat → ℝ, ((scanLoop aB bBx 0).2).drop 1 = []) ∧
    (∀ aB bBx : Nat → ℝ, ((scanLoop aB bBx 1).2).drop 1 = [bBx 0]) ∧
    s6Forward cfg lp 1 x b 0 d =
      (Finset.range cfg.N).sum (fun n =>
        s6C cfg lp x b 0 n *
          (discretize lp (s6Delta cfg lp x) (s6B cfg lp x) x).2 b 0 d n)
      + lp.Dskip d * x b 0 d := by
  refine ⟨fun aB bBx => rfl, fun aB bBx => ?_, ?_⟩
  · simp [scanLoop]
  · unfold s6Forward
    rw [mul_comm (x b 0 d) (lp.Dskip d)]
    refine congrArg (fun t => t + lp.Dskip d * x b 0 d) ?_
    refine Finset.sum_congr rfl (fun n _ => ?_)
    rw [trajGet_eq _ _ Nat.one_pos]
    simp [hSpec]

/-- delta_A of the older src/mamba S6Block.discretize:
delta_A = einsum(delta, -exp(log_minus_A)). -/
noncomputable def mDeltaA (logA : Nat → Nat → ℝ) (delta : T3) : T4 :=
  fun b l d n => delta b l d * -Real.exp (logA d n)

/-- S6Block.discretize of the older src/mamba variant: exact zero-order-hold,
with B_bar = 1/delta_A * (A_bar - 1) * delta_B divided elementwise by
delta_A, with no guard around the division. -/
noncomputable def mDiscretize (logA : Nat → Nat → ℝ) (delta B : T3) : T4 × T4 :=
  let dA := mDeltaA logA delta
  let aBar : T4 := fun b l d n => Real.exp (dA b l d n)
  let bBar : T4 := fun b l d n =>
    1 / dA b l d n * (aBar b l d n - 1) * (delta b l d * B b l n)
  (aBar, bBar)

/-- Claim C10: whenever the delta entry is strictly positive, the divisor
delta_A[b,l,d,n] is strictly negative and hence nonzero, so the elementwise
1/delta_A forming the exact-ZOH B_bar never divides by zero; the third
conjunct records that the code divides exactly by this delta_A. -/
theorem claim_C10_no_div_zero (logA : Nat → Nat → ℝ) (delta B : T3)
    (b l d n : Nat) (h : 0 < delta b l d) :
    mDeltaA logA delta b l d n < 0 ∧ mDeltaA logA delta b l d n ≠ 0 ∧
    (mDiscretize logA delta B).2 b l d n =
      1 / mDeltaA logA delta b l d n *
        (Real.exp (mDeltaA logA delta b l d n) - 1) * (delta b l d * B b l n) := by
  have hneg : mDeltaA logA delta b l d n < 0 := by
    unfold mDeltaA
    exact mul_neg_of_pos_of_neg h (neg_neg_of_pos (Real.exp_pos _))
  exact ⟨hneg, ne_of_lt hneg, rfl⟩

/-- Witness for claim C10 at a concrete input. -/
theorem claim_C10_no_div_zero_witness :
    (0 : ℝ) < 1 ∧
    mDeltaA (fun _ _ => 0) (fun _ _ _ => 1) 0 0 0 0 < 0 ∧
    mDeltaA (fun _ _ => 0) (fun _ _ _ => 1) 0 0 0 0 ≠ 0 :=
  ⟨one_pos,
    (claim_C10_no_div_zero (fun _ _ => 0) (fun _ _ _ => 1) (fun _ _ _ => 0)
      0 0 0 0 one_pos).1,
    (claim_C10_no_div_zero (fun _ _ => 0) (fun _ _ _ => 1) (fun _ _ _ => 0)
      0 0 0 0 one_pos).2.1⟩

/-- Fixed RMSNorm epsilon (1e-5 in the source). -/
noncomputable def rmsEps : ℝ := 1 / 100000

/-- RMSNorm.forward on one width-D vector:
x * rsqrt(mean(x^2) + eps) * weight. -/
noncomputable def rmsnorm (D : Nat) (w : Nat → ℝ) (x : Nat → ℝ) : Nat → ℝ :=
  fun i =>
    x i * (Real.sqrt ((Finset.range D).sum (fun j => x j ^ 2) / D + rmsEps))⁻¹ * w i

/-- RMSNorm applied independently per batch element and position. -/
noncomputable def rmsnormT (D : Nat) (w : Nat → ℝ) (x : T3) : T3 :=
  fun b l i => rmsnorm D w (fun j => x b l j) i

/-- The in_proj output of MambaBlock.forward; channel c ranges over 2*Din,
the first Din channels being the main path and the rest the gate path. -/
noncomputable def blockInProj (cfg : Cfg) (lp : LayerParams) (x : T3) : T3 :=
  fun b l c => lp.inProjB c +
    (Finset.range cfg.D).sum (fun i => lp.inProjW c i * x b l i)

/-- The depthwise causal convolution: each channel is convolved with its own
width-k kernel over the input left-padded with k-1 zeros, and the output is
read only at the first L positions (the [:l] truncation in the source). -/
noncomputable def blockConv (cfg : Cfg) (lp : LayerParams) (x : T3) : T3 :=
  fun b l d => lp.convB d +
    (Finset.range cfg.k).sum (fun j =>
      lp.convW d j *
        (if l + j < cfg.k - 1 then 0 else x b (l + j - (cfg.k - 1)) d))

/-- MambaBlock.forward: in_proj then split into main and gate paths, causal
depthwise convolution and silu on the main path, the S6 block, elementwise
gating by silu of the gate path, and out_proj. -/
noncomputable def blockForward (cfg : Cfg) (lp : LayerParams) (L : Nat) (x : T3) : T3 :=
  let proj := blockInProj cfg lp x
  let xs : T3 := fun b l d => silu (blockConv cfg lp proj b l d)
  let y1 := s6Forward cfg lp L xs
  fun b l c => lp.outProjB c +
    (Finset.range cfg.Din).sum (fun i =>
      lp.outProjW c i * (y1 b l i * silu (proj b l (cfg.Din + i))))

/-- ResidualMambaBlock.forward: block(rms(x)) + x. -/
noncomputable def resBlockForward (cfg : Cfg) (lp : LayerParams) (L : Nat) (x : T3) : T3 :=
  fun b l c => blockForward cfg lp L (rmsnormT cfg.D lp.rmsW x) b l c + x b l c

/-- The whole model parameter set: the embedding table (rows indexed by token
id), the stacked layers, and the final RMSNorm weight.  The logits projection
carries no weight of its own: it is weight-tied to the embedding table. -/
structure MambaParams where
  embW : Nat → Nat → ℝ
  layers : List LayerParams
  rmsW : Nat → ℝ

/-- Mamba.forward: embedding lookup, the stack of residual blocks, the final
RMSNorm, and the bias-free logits projection by the tied embedding table. -/
noncomputable def mambaForward (cfg : Cfg) (P : MambaParams) (L : Nat)
    (tok : Nat → Nat → Nat) : T3 :=
  let emb : T3 := fun b l i => P.embW (tok b l) i
  let trunk := P.layers.foldl (fun acc lp => resBlockForward cfg lp L acc) emb
  let xn := rmsnormT cfg.D P.rmsW trunk
  fun b l v => (Finset.range cfg.D).sum (fun i => P.embW v i * xn b l i)

/-- Two rank-3 tensors that agree at every position strictly below l. -/
def AgreeBelow (l : Nat) (f g : T3) : Prop :=
  ∀ b p c, p < l → f b p c = g b p c

theorem agree_rmsnormT {l : Nat} {x y : T3} (D : Nat) (w : Nat → ℝ)
    (h : AgreeBelow l x y) : AgreeBelow l (rmsnormT D w x) (rmsnormT D w y) := by
  intro b p c hp
  have hx : ∀ j, x b p j = y b p j := fun j => h b p j hp
  unfold rmsnormT rmsnorm
  simp [hx]

theorem agree_inProj (cfg : Cfg) (lp : LayerParams) {l : Nat} {x y : T3}
    (h : AgreeBelow l x y) :
    AgreeBelow l (blockInProj cfg lp x) (blockInProj cfg lp y) := by
  intro b p c hp
  have hx : ∀ i, x b p i = y b p i := fun i => h b p i hp
  unfold blockInProj
  simp [hx]

theorem agree_conv (cfg : Cfg) (lp : LayerParams) {l : Nat} {x y : T3}
    (h : AgreeBelow l x y) :
    AgreeBelow l (blockConv cfg lp x) (blockConv cfg lp y) := by
  intro b p c hp
  unfold blockConv
  refine congrArg (fun t => lp.convB c + t) ?_
  refine Finset.sum_congr rfl (fun j hj => ?_)
  by_cases hcase : p + j < cfg.k - 1
  · simp [hcase]
  · have hj2 : j < cfg.k := Finset.mem_range.mp hj
    have hlt : p + j - (cfg.k - 1) < l := by omega
    simp only [if_neg hcase, h b (p + j - (cfg.k - 1)) c hlt]

theorem agree_BCdelta (cfg : Cfg) (lp : LayerParams) {l : Nat} {x y : T3}
    (h : AgreeBelow l x y) :
    AgreeBelow l (s6BCdelta cfg lp x) (s6BCdelta cfg lp y) := by
  intro b p c hp
  have hx : ∀ i, x b p i = y b p i := fun i => h b p i hp
  unfold s6BCdelta
  simp [hx]

theorem agree_s6Delta (cfg : Cfg) (lp : LayerParams) {l : Nat} {x y : T3}
    (h : AgreeBelow l x y) :
    AgreeBelow l (s6Delta cfg lp x) (s6Delta cfg lp y) := by
  intro b p c hp
  have hx : ∀ j, s6BCdelta cfg lp x b p j = s6BCdelta cfg lp y b p j :=
    fun j => agree_BCdelta cfg lp h b p j hp
  unfold s6Delta
  simp [hx]

theorem agree_s6B (cfg : Cfg) (lp : LayerParams) {l : Nat} {x y : T3}
    (h : AgreeBelow l x y) :
    AgreeBelow l (s6B cfg lp x) (s6B cfg lp y) := by
  intro b p c hp
  exact agree_BCdelta cfg lp h b p (cfg.r + c) hp

theorem agree_s6C (cfg : Cfg) (lp : LayerParams) {l : Nat} {x y : T3}
    (h : AgreeBelow l x y) :
    AgreeBelow l (s6C cfg lp x) (s6C cfg lp y) := by
  intro b p c hp
  exact agree_BCdelta cfg lp h b p (cfg.r + cfg.N + c) hp

theorem agree_s6 (cfg : Cfg) (lp : LayerParams) (L : Nat) {l : Nat} {x y : T3}
    (h : AgreeBelow l x y) :
    AgreeBelow l (s6Forward cfg lp L x) (s6Forward cfg lp L y) := by
  intro b p c hp
  have hd := agree_s6Delta cfg lp h
  have hB := agree_s6B cfg lp h
  have hC := agree_s6C cfg lp h
  unfold s6Forward discretize
  simp only []
  rw [h b p c hp]
  refine congrArg (fun t => t + y b p c * lp.Dskip c) ?_
  refine Finset.sum_congr rfl (fun n _ => ?_)
  rw [hC b p n hp]
  refine congrArg (fun t => s6C cfg lp y b p n * t) ?_
  by_cases hL : p < L
  · rw [trajGet_eq _ _ hL, trajGet_eq _ _ hL]
    apply hSpec_congr
    intro i hi
    have hil : i < l := by omega
    refine ⟨?_, ?_⟩
    · show Real.exp _ = Real.exp _
      rw [hd b i c hil]
    · show s6Delta cfg lp x b i c * s6B cfg lp x b i n * x b i c =
        s6Delta cfg lp y b i c * s6B cfg lp y b i n * y b i c
      rw [hd b i c hil, hB b i n hil, h b i c hil]
  · rw [trajGet_default _ _ (Nat.le_of_not_lt hL),
      trajGet_default _ _ (Nat.le_of_not_lt hL)]

theorem agree_block (cfg : Cfg) (lp : LayerParams) (L : Nat) {l : Nat}
    {x y : T3} (h : AgreeBelow l x y) :
    AgreeBelow l (blockForward cfg lp L x) (blockForward cfg lp L y) := by
  have hproj := agree_inProj cfg lp h
  have hconv := agree_conv cfg lp hproj
  have hxs : AgreeBelow l
      (fun b p d => silu (blockConv cfg lp (blockInProj cfg lp x) b p d))
      (fun b p d => silu (blockConv cfg lp (blockInProj cfg lp y) b p d)) :=
    fun b p d hp => congrArg silu (hconv b p d hp)
  have hy1 := agree_s6 cfg lp L hxs
  intro b p c hp
  unfold blockForward
  refine congrArg (fun t => lp.outProjB c + t) ?_
  refine Finset.sum_congr rfl (fun i _ => ?_)
  rw [hy1 b p i hp, hproj b p (cfg.Din + i) hp]

theorem agree_resBlock (cfg : Cfg) (lp : LayerParams) (L : Nat) {l : Nat}
    {x y : T3} (h : AgreeBelow l x y) :
    AgreeBelow l (resBlockForward cfg lp L x) (resBlockForward cfg lp L y) := by
  intro b p c hp
  unfold resBlockForward
  rw [h b p c hp,
    agree_block cfg lp L (agree_rmsnormT cfg.D lp.rmsW h) b p c hp]

theorem agree_stack (cfg : Cfg) (L : Nat) (ls : List LayerParams) {l : Nat}
    {x y : T3} (h : AgreeBelow l x y) :
    AgreeBelow l (ls.foldl (fun acc lp => resBlockForward cfg lp L acc) x)
      (ls.foldl (fun acc lp => resBlockForward cfg lp L acc) y) := by
  induction ls generalizing x y with
  | nil => simpa using h
  | cons lp rest ih =>
    simp only [List.foldl]
    exact ih (agree_resBlock cfg lp L h)

/-- Claim C3: causality of the full forward pass.  For any model parameters,
any two token-id batches of the same length that agree at every position
strictly before l (they may differ at l or later), and any position p < l,
the logits at p are identical: the convolution's left padding and the scan's
increasing time order make position p depend only on positions at most p. -/
theorem claim_C3_causal (cfg : Cfg) (P : MambaParams) (L : Nat)
    (tok tok2 : Nat → Nat → Nat) (l : Nat)
    (hagree : ∀ b q, q < l → tok b q = tok2 b q)
    (p : Nat) (hp : p < l) (b v : Nat) :
    mambaForward cfg P L tok b p v = mambaForward cfg P L tok2 b p v := by
  have hemb : AgreeBelow l (fun b q i => P.embW (tok b q) i)
      (fun b q i => P.embW (tok2 b q) i) :=
    fun b q i hq => congrArg (fun t => P.embW t i) (hagree b q hq)
  have htrunk := agree_stack cfg L P.layers hemb
  have hxn := agree_rmsnormT cfg.D P.rmsW htrunk
  unfold mambaForward
  exact Finset.sum_congr rfl (fun i _ => by rw [hxn b p i hp])

/-- Concrete model parameters with one layer, used as an instantiation. -/
noncomputable def paramsW : MambaParams :=
  { embW := fun t _ => (t : ℝ), layers := [lpZero], rmsW := fun _ => 1 }

/-- A constant token batch. -/
def tokA : Nat → Nat → Nat := fun _ _ => 0

/-- A token batch agreeing with tokA only at position 0. -/
def tokB : Nat → Nat → Nat := fun _ q => if q = 0 then 0 else 1

/-- Witness for claim C3 at a concrete input: the two batches agree strictly
below position 1 and the logits at position 0 coincide. -/
theorem claim_C3_causal_witness :
    (∀ b q, q < 1 → tokA b q = tokB b q) ∧ (0 : Nat) < 1 ∧
    mambaForward cfgOne paramsW 2 tokA 0 0 0 =
      mambaForward cfgOne paramsW 2 tokB 0 0 0 :=
  ⟨fun b q hq => by simp [tokA, tokB, Nat.lt_one_iff.mp hq], Nat.one_pos,
    claim_C3_causal cfgOne paramsW 2 tokA tokB 1
      (fun b q hq => by simp [tokA, tokB, Nat.lt_one_iff.mp hq])
      0 Nat.one_pos 0 0⟩

/-- Token validity for nn.Embedding: the lookup succeeds exactly when every
id in the batch is below vocab_size (torch raises an index error
otherwise). -/
def idsValid (vocab : Nat) (xb : List (List Nat)) : Bool :=
  xb.all (fun s => s.all (fun t => decide (t < vocab)))

/-- Mamba.forward on a batch given as a list of token-id sequences: the
embedding lookup fails when some id is out of range (modelled as an
InvalidInput error, reflecting the index error torch raises); otherwise the
logits tensor is materialized as a list of per-position rows of vocab_size
logits, each row computed by the forward pass above (every layer treats
batch elements independently). -/
noncomputable def mambaForwardChecked (cfg : Cfg) (P : MambaParams)
    (xb : List (List Nat)) : Except String (List (List (List ℝ))) :=
  if idsValid cfg.vocab xb then
    Except.ok (xb.map (fun s =>
      (List.range s.length).map (fun p =>
        (List.range cfg.vocab).map (fun v =>
          mambaForward cfg P s.length (fun _ q => s.getD q 0) 0 p v))))
  else Except.error "InvalidInput"

/-- Claim C4: for a batch of token-id sequences of shape batch x length with
every id in [0, vocab_size), the forward pass returns logits of shape
batch x length x vocab_size; and it fails with an InvalidInput error exactly
when some id is out of range. -/
theorem claim_C4_forward_contract (cfg : Cfg) (P : MambaParams)
    (xb : List (List Nat)) (L : Nat) (hrect : ∀ s ∈ xb, s.length = L) :
    ((∀ s ∈ xb, ∀ t ∈ s, t < cfg.vocab) →
      ∃ ys, mambaForwardChecked cfg P xb = Except.ok ys ∧
        ys.length = xb.length ∧
        (∀ row ∈ ys, row.length = L ∧ ∀ q ∈ row, q.length = cfg.vocab)) ∧
    ((∃ s ∈ xb, ∃ t ∈ s, cfg.vocab ≤ t) →
      mambaForwardChecked cfg P xb = Except.error "InvalidInput") := by
  constructor
  · intro hval
    have hb : idsValid cfg.vocab xb = true := by
      simp only [idsValid, List.all_eq_true, decide_eq_true_eq]
      exact hval
    refine ⟨_, by rw [mambaForwardChecked, if_pos hb], by simp, ?_⟩
    intro row hrow
    obtain ⟨s, hs, rfl⟩ := List.mem_map.mp hrow
    refine ⟨by simp [hrect s hs], ?_⟩
    intro q hq
    obtain ⟨p, _, rfl⟩ := List.mem_map.mp hq
    simp
  · intro hbad
    have hb : ¬ (idsValid cfg.vocab xb = true) := by
      simp only [idsValid, List.all_eq_true, decide_eq_true_eq]
      push_neg
      obtain ⟨s, hs, t, ht, hge⟩ := hbad
      exact ⟨s, hs, t, ht, hge⟩
    rw [mambaForwardChecked, if_neg hb]

/-- Witness for claim C4 at a concrete input: the batch [[0, 1]] with
vocab_size 2 is rectangular of length 2 and all ids are in range, so the
forward pass returns a 1 x 2 x 2 logits tensor. -/
theorem claim_C4_forward_contract_witness :
    (∀ s ∈ [[(0 : Nat), 1]], s.length = 2) ∧
    (∃ ys, mambaForwardChecked cfgOne paramsW [[0, 1]] = Except.ok ys ∧
      ys.length = [[(0 : Nat), 1]].length ∧
      (∀ row ∈ ys, row.length = 2 ∧ ∀ q ∈ row, q.length = cfgOne.vocab)) :=
  ⟨by decide,
    (claim_C4_forward_contract cfgOne paramsW [[0, 1]] 2 (by decide)).1
      (by decide)⟩

/-- References (object identities) of the two weight sites of the output
head, modelling the Python attribute aliasing in Mamba.__init__:
nn.Embedding allocates the embedding weight as object 0, nn.Linear allocates
a fresh logits weight as object 1, and the assignment
self.logits.weight = self.embedding.weight rebinds the logits site to the
embedding object. -/
structure HeadRefs where
  embWeight : Nat
  logitsWeight : Nat

/-- The head references produced by Mamba.__init__. -/
def mambaHeadRefs : HeadRefs :=
  let embId := 0
  let linearId := 1
  let afterAlloc : HeadRefs := { embWeight := embId, logitsWeight := linearId }
  { afterAlloc with logitsWeight := embId }

/-- Claim C5: at construction the logits weight and the embedding weight are
one single owned parameter referenced from both sites (equal object
references, not two copies), so for every assignment of tensors to parameter
objects (in particular after any sequence of per-object parameter updates)
the two sites view identical tensors. -/
theorem claim_C5_weight_tying :
    mambaHeadRefs.logitsWeight = mambaHeadRefs.embWeight ∧
    ∀ store : Nat → Nat → Nat → ℝ,
      store mambaHeadRefs.logitsWeight = store mambaHeadRefs.embWeight :=
  ⟨rfl, fun _ => rfl⟩

/-- One named parameter together with its construction-time
_no_weight_decay flag. -/
structure PDesc where
  pname : String
  noWd : Bool

/-- Parameters of an nn.Linear (or the depthwise conv) with an optional
bias; neither carries the _no_weight_decay flag. -/
def linDescs (nm : String) (bias : Bool) : List PDesc :=
  if bias then [⟨nm ++ ".weight", false⟩, ⟨nm ++ ".bias", false⟩]
  else [⟨nm ++ ".weight", false⟩]

/-- Parameters contributed by one S6Block in the order model.apply visits
them: the submodules to_BCdelta and delta_upscale first, then the block's
own directly-registered log_minus_A and D, both flagged _no_weight_decay at
construction. -/
def s6Descs (pre : String) : List PDesc :=
  linDescs (pre ++ ".to_BCdelta") false ++
  linDescs (pre ++ ".delta_upscale") true ++
  [⟨pre ++ ".log_minus_A", true⟩, ⟨pre ++ ".D", true⟩]

/-- Parameters of one MambaBlock (in_proj, conv1d, s6_block, out_proj); the
bias flags gb and cb reflect the general_bias and conv_bias settings. -/
def blockDescs (pre : String) (gb cb : Bool) : List PDesc :=
  linDescs (pre ++ ".in_proj") gb ++ linDescs (pre ++ ".conv1d") cb ++
  s6Descs (pre ++ ".s6_block") ++ linDescs (pre ++ ".out_proj") gb

/-- Parameters of one ResidualMambaBlock (its inner block, then its
RMSNorm). -/
def layerDescs (i : Nat) (gb cb : Bool) : List PDesc :=
  blockDescs ("layers." ++ toString i ++ ".block") gb cb ++
  [⟨"layers." ++ toString i ++ ".rms.weight", false⟩]

/-- All parameters of a freshly constructed Mamba model in apply order:
embedding, the layers, the final RMSNorm, and the logits module, whose
weight is the tied embedding weight object seen a second time. -/
def mambaDescs (n : Nat) (gb cb : Bool) : List PDesc :=
  [⟨"embedding.weight", false⟩] ++
  ((List.range n).map (fun i => layerDescs i gb cb)).flatten ++
  [⟨"rms.weight", false⟩, ⟨"logits.weight", false⟩]

/-- MambaTrainer._add_param_to_groups folded over all parameters: each
parameter is appended to the no_decay list when its _no_weight_decay flag is
set, and to the decay list otherwise. -/
def collectGroups (ps : List PDesc) : List PDesc × List PDesc :=
  ps.foldl
    (fun g p => if p.noWd then (g.1, g.2 ++ [p]) else (g.1 ++ [p], g.2))
    ([], [])

/-- The trainer's final grouping: after collecting, the last decay entry
(the tied logits weight, which the traversal counted twice) is deleted. -/
def trainerGroups (ps : List PDesc) : List PDesc × List PDesc :=
  ((collectGroups ps).1.dropLast, (collectGroups ps).2)

/-- The decay-exempt parameters of layer i: its log-decay matrix and its
skip-scale vector. -/
def exemptDescs (i : Nat) : List PDesc :=
  [⟨"layers." ++ toString i ++ ".block" ++ ".s6_block" ++ ".log_minus_A", true⟩,
   ⟨"layers." ++ toString i ++ ".block" ++ ".s6_block" ++ ".D", true⟩]

theorem collect_aux (ps : List PDesc) (a b : List PDesc) :
    (ps.foldl
      (fun g p => if p.noWd then (g.1, g.2 ++ [p]) else (g.1 ++ [p], g.2))
      (a, b)).2
      = b ++ ps.filter (fun p => p.noWd) := by
  induction ps generalizing a b with
  | nil => simp
  | cons p rest ih =>
    by_cases hp : p.noWd
    · simp only [List.foldl, if_pos hp, ih, List.filter_cons_of_pos hp]
      simp
    · simp only [List.foldl, if_neg hp, ih,
        List.filter_cons_of_neg (by simpa using hp)]

theorem collectGroups_snd (ps : List PDesc) :
    (collectGroups ps).2 = ps.filter (fun p => p.noWd) := by
  simpa using collect_aux ps [] []

theorem filter_linDescs (nm : String) (bias : Bool) :
    (linDescs nm bias).filter (fun p => p.noWd) = [] := by
  cases bias <;> simp [linDescs, List.filter]

theorem filter_s6Descs (pre : String) :
    (s6Descs pre).filter (fun p => p.noWd) =
      [⟨pre ++ ".log_minus_A", true⟩, ⟨pre ++ ".D", true⟩] := by
  simp [s6Descs, linDescs, List.filter_append, List.filter]

theorem filter_layerDescs (i : Nat) (gb cb : Bool) :
    (layerDescs i gb cb).filter (fun p => p.noWd) = exemptDescs i := by
  simp [layerDescs, blockDescs, exemptDescs, List.filter_append,
    filter_linDescs, filter_s6Descs, List.filter]

theorem filter_layers_join (n : Nat) (gb cb : Bool) :
    (((List.range n).map (fun i => layerDescs i gb cb)).flatten).filter
        (fun p => p.noWd)
      = ((List.range n).map exemptDescs).flatten := by
  induction n with
  | zero => rfl
  | succ m ih =>
    rw [List.range_succ, List.map_append, List.map_append, List.flatten_append,
      List.flatten_append, List.filter_append, ih]
    simp [filter_layerDescs]

/-- Claim C7: for a freshly constructed model (any layer count and bias
configuration), the decay-exempt parameter set is exactly the log-decay
matrix and the skip-scale vector of every layer — the no_decay group built
by the trainer equals that list, the flagged parameters of the model are
exactly that list, and the grouping reads the per-parameter flag (its
no_decay output is the flag-filtered parameter list for every parameter
list, with no name-based rederivation). -/
theorem claim_C7_param_groups (n : Nat) (gb cb : Bool) :
    (trainerGroups (mambaDescs n gb cb)).2
        = ((List.range n).map exemptDescs).flatten ∧
    (mambaDescs n gb cb).filter (fun p => p.noWd)
        = ((List.range n).map exemptDescs).flatten ∧
    (∀ ps : List PDesc, (collectGroups ps).2 = ps.filter (fun p => p.noWd)) := by
  have hfilter : (mambaDescs n gb cb).filter (fun p => p.noWd)
      = ((List.range n).map exemptDescs).flatten := by
    rw [mambaDescs, List.filter_append, List.filter_append,
      filter_layers_join]
    simp [List.filter]
  exact ⟨by rw [trainerGroups, collectGroups_snd, hfilter], hfilter,
    collectGroups_snd⟩

/-- s4d_real of S6Block.__init__: torch.arange(1, N + 1) broadcast (repeated)
across the D_inner channel rows. -/
def s4dReal (N Din : Nat) : List (List ℝ) :=
  List.replicate Din ((List.range N).map (fun i => ((i + 1 : Nat) : ℝ)))

/-- The construction-time value of log_minus_A: the elementwise log of
s4d_real. -/
noncomputable def logMinusAInit (N Din : Nat) : List (List ℝ) :=
  (s4dReal N Din).map (fun row => row.map Real.log)

/-- Claim C8: at construction, every row d < D_inner of log_minus_A equals
the vector (log 1, log 2, ..., log N), identical across all channels. -/
theorem claim_C8_logA_init (N Din d : Nat) (hd : d < Din) :
    (logMinusAInit N Din).getD d [] =
      (List.range N).map (fun m => Real.log ((m + 1 : Nat) : ℝ)) := by
  unfold logMinusAInit s4dReal
  rw [List.getD_eq_getElem _ _ (by simpa using hd)]
  simp [List.map_map, Function.comp]

/-- Witness for claim C8 at a concrete input. -/
theorem claim_C8_logA_init_witness :
    (0 : Nat) < 2 ∧
    (logMinusAInit 3 2).getD 0 [] =
      (List.range 3).map (fun m => Real.log ((m + 1 : Nat) : ℝ)) :=
  ⟨by decide, claim_C8_logA_init 3 2 0 (by decide)⟩

end ThesisWork
